import Mathlib

/-!
Verification of the tagit CLI's tag discovery and version-ordering logic.

JS strings are modelled as `List Char`; machine numbers as `Nat`/`Int`
(the tool's own edge-case policy places integer-overflow boundaries out
of scope).  Each definition is a direct translation of the corresponding
function in the source (`lib/utils.js` and the command modules); external
collaborators (the git subprocess, the filesystem, interactive prompts)
are passed in as explicit data so every function is pure and executable.
-/

/-- A semver triple `[major, minor, patch]` as the source stores it. -/
structure Version where
  major : Nat
  minor : Nat
  patch : Nat
  deriving DecidableEq, Repr

/-- The character for a single decimal digit `d < 10` (code point 48 + d). -/
def digitCh (d : Nat) : Char := Char.ofNat (48 + d)

/-- Decimal rendering of a natural number, digit characters most significant
first, mirroring JS number-to-string conversion inside template literals. -/
def natToDigits (n : Nat) : List Char :=
  if n < 10 then [digitCh n]
  else natToDigits (n / 10) ++ [digitCh (n % 10)]
decreasing_by exact Nat.div_lt_self (by omega) (by omega)

/-- `parseInt(s, 10)` on a string of decimal digits. -/
def digitsToNat (ds : List Char) : Nat :=
  ds.foldl (fun a c => 10 * a + (c.toNat - 48)) 0

/-- `formatVersion` from utils.js: the template literal
`${v[0]}.${v[1]}.${v[2]}`. -/
def formatVersion (v : Version) : List Char :=
  natToDigits v.major ++ '.' :: natToDigits v.minor ++ '.' :: natToDigits v.patch

/-- The anchored regex `^(\d+)\.(\d+)\.(\d+)$` applied to the remainder of a
tag after the prefix is removed.  Because `.` is not a digit, the greedy
`\d+` groups are forced to be the maximal digit runs, so the regex engine's
behaviour is exactly this deterministic scan. -/
def matchSemverCore (cs : List Char) : Option Version :=
  match cs.span (fun c => c.isDigit) with
  | (d1, rest1) =>
    if d1 = [] then none
    else
      match rest1 with
      | '.' :: r2 =>
        match r2.span (fun c => c.isDigit) with
        | (d2, rest2) =>
          if d2 = [] then none
          else
            match rest2 with
            | '.' :: r3 =>
              match r3.span (fun c => c.isDigit) with
              | (d3, rest3) =>
                if d3 = [] then none
                else if rest3 = [] then
                  some ⟨digitsToNat d1, digitsToNat d2, digitsToNat d3⟩
                else none
            | _ => none
      | _ => none

/-- `parseSemverFromTag(tag, prefix)` from utils.js: `null` unless `tag`
starts with the prefix and the remainder matches `^(\d+)\.(\d+)\.(\d+)$`. -/
def parseSemverFromTag (tag pfx : List Char) : Option Version :=
  if pfx.isPrefixOf tag then matchSemverCore (tag.drop pfx.length)
  else none

/-- `compareSemver(a, b)` from utils.js: componentwise difference, first
differing component wins (a JS number, negative / zero / positive). -/
def compareSemver (a b : Version) : Int :=
  if a.major ≠ b.major then (a.major : Int) - (b.major : Int)
  else if a.minor ≠ b.minor then (a.minor : Int) - (b.minor : Int)
  else (a.patch : Int) - (b.patch : Int)

/-- `bumpPatch(version)` from utils.js. -/
def bumpPatch (v : Version) : Version :=
  ⟨v.major, v.minor, v.patch + 1⟩

-- JS string helpers: `split(sep)`, `join(sep)`, `trim()`.

/-- JS `String.prototype.split` with a single-character separator:
`""` splits to `[""]`, separators at the ends produce empty fields. -/
def splitOnChar (sep : Char) : List Char → List (List Char)
  | [] => [[]]
  | c :: cs =>
    match splitOnChar sep cs with
    | [] => [[]]
    | r :: rs => if c = sep then [] :: r :: rs else (c :: r) :: rs

/-- JS `Array.prototype.join` with a single-character separator. -/
def joinSep (sep : Char) : List (List Char) → List Char
  | [] => []
  | [x] => x
  | x :: xs => x ++ sep :: joinSep sep xs

/-- JS `String.prototype.trim` (over the whitespace characters the
claims exercise). -/
def trimChars (cs : List Char) : List Char :=
  ((cs.dropWhile Char.isWhitespace).reverse.dropWhile Char.isWhitespace).reverse


-- The git subprocess boundary (`runGit` in utils.js).

/-- Outcome of one `spawnSync('git', args)` call: exit status and the two
output streams.  This is the data `runGit` inspects. -/
structure GitResult where
  status : Int
  stdout : List Char
  stderr : List Char
  deriving DecidableEq, Repr

/-- `runGit` from utils.js: non-zero status throws `stderr` (or the fixed
fallback text when stderr is empty); success returns trimmed stdout. -/
def runGit (r : GitResult) : Except (List Char) (List Char) :=
  if r.status ≠ 0 then
    Except.error (if r.stderr = [] then "Git command failed".data else r.stderr)
  else Except.ok (trimChars r.stdout)

-- Environments and tag records.

/-- One environment entry `{label, prefix, description}` as stored in the
registry; the tag-name prefix is the `pfx` field. -/
structure Env where
  label : List Char
  pfx : List Char
  description : Option (List Char)
  deriving DecidableEq, Repr

/-- JS object property lookup `ENVS[envName]` on an insertion-ordered
mapping with unique keys, modelled as first-match association lookup. -/
def envLookup (k : List Char) : List (List Char × Env) → Option Env
  | [] => none
  | (k', e) :: rest => if k' = k then some e else envLookup k rest

/-- The record built per tag line in `getLatestTagForEnv`. -/
structure TagRecord where
  name : List Char
  author : List Char
  ago : List Char
  description : List Char
  version : Version
  deriving DecidableEq, Repr

/-- The per-line body of `getLatestTagForEnv`'s loop: split the line on
the `|` delimiter, take the first three fields (with the source's falsy
fallbacks), rejoin everything after the third field with `|` and trim it
as the message body, and keep the record only when the name decodes. -/
def parseTagLine (pfx line : List Char) : Option TagRecord :=
  let parts := splitOnChar '|' line
  let name := parts.getD 0 []
  let author := if parts.getD 1 [] = [] then "unknown".data else parts.getD 1 []
  let ago := parts.getD 2 []
  let description := trimChars (joinSep '|' (parts.drop 3))
  match parseSemverFromTag name pfx with
  | none => none
  | some version => some ⟨name, author, ago, description, version⟩

/-- The tag records `getLatestTagForEnv` accumulates from the raw git
output: split into lines, drop blank lines, parse each, keep decoders. -/
def decodeTagLines (pfx output : List Char) : List TagRecord :=
  ((splitOnChar '\n' output).filter
    (fun l => !(trimChars l).isEmpty)).filterMap (parseTagLine pfx)

/-- The comparator `(a, b) => compareSemver(b.version, a.version)` handed
to the stable array sort, rendered as the Boolean "may come first"
relation of a stable merge sort: `a` may precede `b` iff the comparator
is non-positive. -/
def tagSortLE (a b : TagRecord) : Bool :=
  decide (compareSemver b.version a.version ≤ 0)

/-- `getLatestTagForEnv(envName, ENVS)` from utils.js, with the git call's
outcome passed in.  Registry miss, query failure, empty output and
zero decoded tags all yield `none`; otherwise the head of the stable
descending sort. -/
def getLatestTagForEnv (envName : List Char) (envs : List (List Char × Env))
    (gitres : GitResult) : Option TagRecord :=
  match envLookup envName envs with
  | none => none
  | some env =>
    match runGit gitres with
    | Except.error _ => none
    | Except.ok output =>
      if output = [] then none
      else
        match (decodeTagLines env.pfx output).mergeSort tagSortLE with
        | [] => none
        | t :: _ => some t

-- Prefix detection (`detectPrefixes` in utils.js).

/-- Whether a string begins with `\d+\.\d+\.\d+` (trailing characters
allowed), the second group of the detection regex. -/
def versionRunStart (cs : List Char) : Bool :=
  match cs.span (fun c => c.isDigit) with
  | (d1, rest1) =>
    if d1 = [] then false
    else
      match rest1 with
      | '.' :: r2 =>
        match r2.span (fun c => c.isDigit) with
        | (d2, rest2) =>
          if d2 = [] then false
          else
            match rest2 with
            | '.' :: r3 => !((r3.span (fun c => c.isDigit)).1.isEmpty)
            | _ => false
      | _ => false

/-- The detection regex `^([a-zA-Z]+)(\d+\.\d+\.\d+)`: the captured
alphabetic prefix when the tag qualifies.  The alphabetic run is maximal
because a shorter run would leave an alphabetic, non-digit character
where `\d` is required. -/
def tagMatchedPfx (tag : List Char) : Option (List Char) :=
  match tag.span (fun c => c.isAlpha) with
  | (a, rest) =>
    if a = [] then none
    else if versionRunStart rest then some a else none

/-- One `prefixMap` update: create the group on first sight, then append
the tag while the group still has fewer than 3 examples. -/
def insertTagGroup :
    List (List Char × List (List Char)) → List Char → List Char →
    List (List Char × List (List Char))
  | [], p, tag => [(p, [tag])]
  | (q, ex) :: rest, p, tag =>
    if q = p then (q, if ex.length < 3 then ex ++ [tag] else ex) :: rest
    else (q, ex) :: insertTagGroup rest p tag

/-- The body of `detectPrefixes`' loop over tags. -/
def detectStep (m : List (List Char × List (List Char))) (tag : List Char) :
    List (List Char × List (List Char)) :=
  match tagMatchedPfx tag with
  | none => m
  | some p => insertTagGroup m p tag

/-- The pure core of `detectPrefixes`: group an already-listed tag list. -/
def detectPrefixesFromTags (tags : List (List Char)) :
    List (List Char × List (List Char)) :=
  tags.foldl detectStep []

/-- `detectPrefixes` from utils.js with the git call's outcome passed in:
failures and empty output give the empty map. -/
def detectPrefixes (gitres : GitResult) : List (List Char × List (List Char)) :=
  match runGit gitres with
  | Except.error _ => []
  | Except.ok output =>
    if output = [] then []
    else detectPrefixesFromTags
      ((splitOnChar '\n' output).filter (fun l => !(trimChars l).isEmpty))

/-- `prefixMap.get(p)` on the insertion-ordered group map. -/
def groupLookup (p : List Char) :
    List (List Char × List (List Char)) → Option (List (List Char))
  | [] => none
  | (q, ex) :: rest => if q = p then some ex else groupLookup p rest

-- Configuration loading (`loadConfig` in utils.js).

/-- A parsed JSON document, as `JSON.parse` can return it. -/
inductive JsonValue where
  | null
  | bool (b : Bool)
  | str (s : List Char)
  | num (n : Int)
  | arr (elems : List JsonValue)
  | obj (fields : List (List Char × JsonValue))

/-- The `DEFAULT_ENVS` constant of utils.js, as the JSON document shape
`loadConfig` hands back when it falls back. -/
def DEFAULT_ENVS : JsonValue :=
  JsonValue.obj
    [("prod".data, JsonValue.obj
        [("label".data, JsonValue.str "Production".data),
         ("prefix".data, JsonValue.str "v".data)]),
     ("sandbox".data, JsonValue.obj
        [("label".data, JsonValue.str "Sandbox".data),
         ("prefix".data, JsonValue.str "x".data)]),
     ("preprod".data, JsonValue.obj
        [("label".data, JsonValue.str "Preprod".data),
         ("prefix".data, JsonValue.str "preprod".data)]),
     ("staging".data, JsonValue.obj
        [("label".data, JsonValue.str "Staging".data),
         ("prefix".data, JsonValue.str "s".data)]),
     ("dev".data, JsonValue.obj
        [("label".data, JsonValue.str "Dev".data),
         ("prefix".data, JsonValue.str "d".data)])]

/-- `loadConfig` from utils.js, over the filesystem boundary: whether the
config file exists, and what `JSON.parse(readFileSync(...))` produced
(`none` models the read or parse throwing).  Whatever parses is returned
as-is; everything else falls back to the defaults. -/
def loadConfig (fileExists : Bool) (parsed : Option JsonValue) : JsonValue :=
  if fileExists then
    match parsed with
    | some v => v
    | none => DEFAULT_ENVS
  else DEFAULT_ENVS

-- The setup command's construction of a new configuration (setup.js).

/-- The four interactive answers setup collects for one detected prefix:
the initial "Configure?" gate, the name, the optional description, and
the final confirmation. -/
structure SetupAnswers where
  configure : Bool
  name : List Char
  description : List Char
  confirm : Bool
  deriving DecidableEq, Repr

/-- JS object property assignment `config[key] = value`: replace the
first binding of the key, or append a new one. -/
def objInsert (m : List (List Char × Env)) (k : List Char) (v : Env) :
    List (List Char × Env) :=
  match m with
  | [] => [(k, v)]
  | (k', v') :: rest =>
    if k' = k then (k', v) :: rest else (k', v') :: objInsert rest k v

/-- `prefix.toLowerCase()`. -/
def lowerStr (s : List Char) : List Char := s.map Char.toLower

/-- One round of the setup loop: a prefix contributes an entry only when
the configure gate and the final confirmation are both accepted; the
entry is keyed by the lowercased prefix and its empty description
becomes `undefined`. -/
def setupStep (config : List (List Char × Env))
    (item : List Char × SetupAnswers) : List (List Char × Env) :=
  if item.2.configure then
    if item.2.confirm then
      objInsert config (lowerStr item.1)
        ⟨item.2.name, item.1,
         if item.2.description = [] then none else some item.2.description⟩
    else config
  else config

/-- The setup loop over detected prefixes with their answers. -/
def setupBuildConfig (items : List (List Char × SetupAnswers)) :
    List (List Char × Env) :=
  items.foldl setupStep []

/-- Whether setup calls `saveConfig` at all:
`Object.keys(config).length > 0`. -/
def setupSaves (items : List (List Char × SetupAnswers)) : Bool :=
  (setupBuildConfig items).length > 0

/-- The configuration file after a setup run, given its previous content
(`none` = no file): it is overwritten only when `saveConfig` runs. -/
def setupPersistedFile (prev : Option (List (List Char × Env)))
    (items : List (List Char × SetupAnswers)) :
    Option (List (List Char × Env)) :=
  if setupSaves items then some (setupBuildConfig items) else prev

-- The bump command (bump.js).

/-- The next tag name bump computes: prefix ++ format(bumpPatch(base)),
base being the current latest's version or `[0, 0, 0]`. -/
def bumpNextTag (env : Env) (latest : Option TagRecord) : List Char :=
  env.pfx ++ formatVersion (bumpPatch
    (match latest with
     | some l => l.version
     | none => ⟨0, 0, 0⟩))

/-- Argument lists of the three git write calls in bump's try block. -/
def tagCreateArgs (newTag message : List Char) : List (List Char) :=
  if trimChars message ≠ [] then
    ["tag".data, "-a".data, newTag, "-m".data, trimChars message]
  else ["tag".data, newTag]

def pushArgs (newTag : List Char) : List (List Char) :=
  ["push".data, "origin".data, newTag]

def fetchArgs : List (List Char) :=
  ["fetch".data, "origin".data, "+refs/tags/*:refs/tags/*".data]

/-- What bump's execute phase did: the git invocations attempted in
order, the error text printed on failure, and the process exit code. -/
structure BumpExecResult where
  attempted : List (List (List Char))
  errorMsg : Option (List Char)
  exitCode : Nat
  deriving DecidableEq, Repr

/-- The try block of bump's action: create the tag (annotated when the
trimmed message is non-blank), push it, refetch all tags — strictly in
sequence, stopping at the first failure, which is printed with the
underlying error text and exits with status 1. -/
def bumpExecute (oracle : List (List Char) → GitResult)
    (newTag message : List Char) : BumpExecResult :=
  let a1 := tagCreateArgs newTag message
  match runGit (oracle a1) with
  | Except.error e => ⟨[a1], some ("✗ Error: ".data ++ e), 1⟩
  | Except.ok _ =>
    let a2 := pushArgs newTag
    match runGit (oracle a2) with
    | Except.error e => ⟨[a1, a2], some ("✗ Error: ".data ++ e), 1⟩
    | Except.ok _ =>
      match runGit (oracle fetchArgs) with
      | Except.error e => ⟨[a1, a2, fetchArgs], some ("✗ Error: ".data ++ e), 1⟩
      | Except.ok _ => ⟨[a1, a2, fetchArgs], none, 0⟩


-- Basic facts about digit rendering and parsing.

theorem digitCh_isDigit {d : Nat} (h : d < 10) : (digitCh d).isDigit = true := by
  interval_cases d <;> decide

theorem digitCh_toNat {d : Nat} (h : d < 10) : (digitCh d).toNat = 48 + d := by
  interval_cases d <;> decide

theorem natToDigits_ne_nil (n : Nat) : natToDigits n ≠ [] := by
  rw [natToDigits]
  split <;> simp

theorem natToDigits_all_digit (n : Nat) : ∀ c ∈ natToDigits n, c.isDigit = true := by
  induction n using Nat.strong_induction_on with
  | _ n ih =>
    rw [natToDigits]
    split
    · intro c hc
      simp only [List.mem_singleton] at hc
      subst hc
      exact digitCh_isDigit (by omega)
    · intro c hc
      rcases List.mem_append.mp hc with h1 | h1
      · exact ih (n / 10) (Nat.div_lt_self (by omega) (by omega)) c h1
      · simp only [List.mem_singleton] at h1
        subst h1
        exact digitCh_isDigit (Nat.mod_lt _ (by omega))

theorem digitsToNat_append_singleton (ds : List Char) (c : Char) :
    digitsToNat (ds ++ [c]) = 10 * digitsToNat ds + (c.toNat - 48) := by
  simp [digitsToNat, List.foldl_append]

theorem digitsToNat_natToDigits (n : Nat) : digitsToNat (natToDigits n) = n := by
  induction n using Nat.strong_induction_on with
  | _ n ih =>
    rw [natToDigits]
    split
    · rename_i h
      simp [digitsToNat, digitCh_toNat h]
    · rename_i h
      rw [digitsToNat_append_singleton,
        ih (n / 10) (Nat.div_lt_self (by omega) (by omega)),
        digitCh_toNat (Nat.mod_lt _ (by omega))]
      omega

-- Span over a list whose prefix is all-digits.

theorem span_all_of_pred {p : Char → Bool} (xs : List Char)
    (hall : ∀ c ∈ xs, p c = true) : xs.span p = (xs, []) := by
  induction xs with
  | nil => rfl
  | cons c cs ih =>
    have hc : p c = true := hall c (List.mem_cons_self _ _)
    have ih' := ih (fun d hd => hall d (List.mem_cons_of_mem _ hd))
    rw [List.span_eq_take_drop] at ih' ⊢
    have h1 : cs.takeWhile p = cs := congrArg Prod.fst ih'
    have h2 : cs.dropWhile p = [] := congrArg Prod.snd ih'
    simp [List.takeWhile_cons, List.dropWhile_cons, hc, h1, h2]

theorem span_all_append_cons {p : Char → Bool} (xs : List Char) (y : Char)
    (ys : List Char) (hall : ∀ c ∈ xs, p c = true) (hy : p y = false) :
    (xs ++ y :: ys).span p = (xs, y :: ys) := by
  induction xs with
  | nil =>
    rw [List.span_eq_take_drop]
    simp [List.takeWhile_cons, List.dropWhile_cons, hy]
  | cons c cs ih =>
    have hc : p c = true := hall c (List.mem_cons_self _ _)
    have ih' := ih (fun d hd => hall d (List.mem_cons_of_mem _ hd))
    rw [List.span_eq_take_drop] at ih' ⊢
    have h1 : (cs ++ y :: ys).takeWhile p = cs := congrArg Prod.fst ih'
    have h2 : (cs ++ y :: ys).dropWhile p = y :: ys := congrArg Prod.snd ih'
    simp [List.takeWhile_cons, List.dropWhile_cons, hc, h1, h2]

theorem matchSemverCore_runs (d1 d2 d3 : List Char)
    (h1 : d1 ≠ []) (h2 : d2 ≠ []) (h3 : d3 ≠ [])
    (a1 : ∀ c ∈ d1, c.isDigit = true) (a2 : ∀ c ∈ d2, c.isDigit = true)
    (a3 : ∀ c ∈ d3, c.isDigit = true) :
    matchSemverCore (d1 ++ '.' :: d2 ++ '.' :: d3)
      = some ⟨digitsToNat d1, digitsToNat d2, digitsToNat d3⟩ := by
  have hdot : ('.' : Char).isDigit = false := by decide
  have e1 := span_all_append_cons d1 '.' (d2 ++ '.' :: d3) a1 hdot
  have e2 := span_all_append_cons d2 '.' d3 a2 hdot
  have e3 := span_all_of_pred d3 a3
  simp only [matchSemverCore, List.append_assoc, List.cons_append]
  rw [e1]
  simp only [if_neg h1]
  rw [e2]
  simp only [if_neg h2]
  rw [e3]
  simp [if_neg h3]

theorem matchSemverCore_format (v : Version) :
    matchSemverCore (formatVersion v) = some v := by
  rw [formatVersion, matchSemverCore_runs _ _ _ (natToDigits_ne_nil v.major)
    (natToDigits_ne_nil v.minor) (natToDigits_ne_nil v.patch)
    (natToDigits_all_digit v.major) (natToDigits_all_digit v.minor)
    (natToDigits_all_digit v.patch)]
  simp [digitsToNat_natToDigits]

theorem joinSep_single (sep : Char) (x : List Char) : joinSep sep [x] = x := rfl

theorem joinSep_cons_cons (sep : Char) (x y : List Char) (xs : List (List Char)) :
    joinSep sep (x :: y :: xs) = x ++ sep :: joinSep sep (y :: xs) := rfl

theorem splitOnChar_ne_nil (sep : Char) (cs : List Char) : splitOnChar sep cs ≠ [] := by
  cases cs with
  | nil => simp [splitOnChar]
  | cons c cs =>
    rw [splitOnChar]
    split
    · simp
    · split <;> simp

theorem joinSep_splitOnChar (sep : Char) (cs : List Char) :
    joinSep sep (splitOnChar sep cs) = cs := by
  induction cs with
  | nil => rfl
  | cons c cs ih =>
    rw [splitOnChar]
    match h : splitOnChar sep cs with
    | [] => exact absurd h (splitOnChar_ne_nil sep cs)
    | r :: rs =>
      rw [h] at ih
      by_cases hc : c = sep
      · subst hc
        simp [joinSep_cons_cons, ih]
      · simp only [if_neg hc]
        cases rs with
        | nil =>
          rw [joinSep_single] at ih
          rw [joinSep_single, ih]
        | cons r' rs' =>
          rw [joinSep_cons_cons] at ih
          rw [joinSep_cons_cons, List.cons_append, ih]

theorem splitOnChar_append_cons (sep : Char) (xs ys : List Char) (hx : sep ∉ xs) :
    splitOnChar sep (xs ++ sep :: ys) = xs :: splitOnChar sep ys := by
  induction xs with
  | nil =>
    rw [List.nil_append, splitOnChar]
    match h : splitOnChar sep ys with
    | [] => exact absurd h (splitOnChar_ne_nil sep ys)
    | r :: rs => simp
  | cons c cs ih =>
    have hc : c ≠ sep := fun h => hx (h ▸ List.mem_cons_self _ _)
    have ih' := ih (fun h => hx (List.mem_cons_of_mem _ h))
    rw [List.cons_append, splitOnChar, ih']
    simp [hc]

theorem natToDigits_single {n : Nat} (h : n < 10) : natToDigits n = [digitCh n] := by
  rw [natToDigits, if_pos h]

-- Helper: a fold over skipped setup items never touches the accumulator.

theorem setupStep_skip (c : List (List Char × Env))
    (it : List Char × SetupAnswers)
    (h : it.2.configure = false ∨ it.2.confirm = false) :
    setupStep c it = c := by
  unfold setupStep
  rcases h with h | h <;> rw [h] <;> simp

theorem foldl_setupStep_skip (items : List (List Char × SetupAnswers))
    (h : ∀ it ∈ items, it.2.configure = false ∨ it.2.confirm = false) :
    ∀ c, items.foldl setupStep c = c := by
  induction items with
  | nil => intro c; rfl
  | cons it rest ih =>
    intro c
    rw [List.foldl_cons, setupStep_skip c it (h it (List.mem_cons_self _ _)),
      ih (fun x hx => h x (List.mem_cons_of_mem _ hx))]

/-- C10: loadConfig falls back to the fixed default registry exactly when
the configuration file does not exist or reading/parsing it throws, and
otherwise returns the parsed JSON value unvalidated — any syntactically
valid JSON document, null and arrays and field-free objects included, is
accepted as the registry without a shape check. -/
theorem loadConfig_fallback_exactly :
    (∀ v : JsonValue, loadConfig true (some v) = v) ∧
    (∀ parsed : Option JsonValue, loadConfig false parsed = DEFAULT_ENVS) ∧
    loadConfig true none = DEFAULT_ENVS :=
  ⟨fun _ => rfl, fun _ => rfl, rfl⟩

/-- C5: the bump plan's next tag name is the environment prefix followed
by the formatted patch-incremented base version, where the base is the
latest tag's version when one exists and (0,0,0) otherwise; with no
existing tag the next name is prefix ++ "0.0.1", and bumpPatch increments
only the patch component. -/
theorem bump_plan_next_tag :
    (∀ env : Env, bumpNextTag env none = env.pfx ++ "0.0.1".data) ∧
    (∀ (env : Env) (l : TagRecord),
      bumpNextTag env (some l) = env.pfx ++ formatVersion (bumpPatch l.version)) ∧
    (∀ v : Version, bumpPatch v = ⟨v.major, v.minor, v.patch + 1⟩) := by
  refine ⟨?_, fun env l => rfl, fun v => rfl⟩
  intro env
  show env.pfx ++ formatVersion (bumpPatch ⟨0, 0, 0⟩) = env.pfx ++ "0.0.1".data
  rw [show formatVersion (bumpPatch ⟨0, 0, 0⟩) = "0.0.1".data from by
    simp only [bumpPatch, formatVersion, @natToDigits_single 0 (by omega),
      @natToDigits_single 1 (by omega)]
    decide]

/-- C6: a setup run in which no prefix entry is accepted (every prefix
skipped at the configure gate or declined at the final confirmation)
assembles an empty mapping, never invokes saveConfig — the save is guarded
by the mapping being non-empty — and therefore leaves any previously
persisted configuration file unchanged. -/
theorem setup_all_skip_no_write (items : List (List Char × SetupAnswers))
    (prev : Option (List (List Char × Env)))
    (h : ∀ it ∈ items, it.2.configure = false ∨ it.2.confirm = false) :
    setupBuildConfig items = [] ∧ setupSaves items = false ∧
    setupPersistedFile prev items = prev ∧
    (∀ items' : List (List Char × SetupAnswers),
      setupSaves items' = true → setupBuildConfig items' ≠ []) := by
  have key : setupBuildConfig items = [] := foldl_setupStep_skip items h []
  refine ⟨key, ?_, ?_, ?_⟩
  · simp [setupSaves, key]
  · simp [setupPersistedFile, setupSaves, key]
  · intro items' hs hne
    rw [setupSaves, hne] at hs
    simp at hs

theorem setup_all_skip_no_write_witness :
    (∀ it ∈ [(("d".data : List Char),
        (⟨false, "Dev".data, [], true⟩ : SetupAnswers)),
      (("v".data : List Char), (⟨true, "Prod".data, [], false⟩ : SetupAnswers))],
      it.2.configure = false ∨ it.2.confirm = false) ∧
    (setupBuildConfig [(("d".data : List Char),
        (⟨false, "Dev".data, [], true⟩ : SetupAnswers)),
      (("v".data : List Char), (⟨true, "Prod".data, [], false⟩ : SetupAnswers))] = [] ∧
     setupSaves [(("d".data : List Char),
        (⟨false, "Dev".data, [], true⟩ : SetupAnswers)),
      (("v".data : List Char), (⟨true, "Prod".data, [], false⟩ : SetupAnswers))] = false ∧
     setupPersistedFile
        (some [("prod".data, ⟨"Production".data, "v".data, none⟩)])
        [(("d".data : List Char), (⟨false, "Dev".data, [], true⟩ : SetupAnswers)),
         (("v".data : List Char), (⟨true, "Prod".data, [], false⟩ : SetupAnswers))] =
       some [("prod".data, ⟨"Production".data, "v".data, none⟩)] ∧
     (∀ items' : List (List Char × SetupAnswers),
       setupSaves items' = true → setupBuildConfig items' ≠ [])) :=
  ⟨by decide,
   setup_all_skip_no_write _
     (some [("prod".data, ⟨"Production".data, "v".data, none⟩)]) (by decide)⟩

/-- C7: bump's execute phase runs create, push, refetch strictly in that
order, stops at the first failure, surfaces the underlying error text in
the printed message, and exits non-zero; in particular when creation
succeeds and the push fails, only create and push were attempted (the
refetch is skipped and nothing undoes the created tag) and the message
is the error banner followed by the push error text. -/
theorem bump_execute_sequencing (oracle : List (List Char) → GitResult)
    (newTag message : List Char) :
    (∀ e, runGit (oracle (tagCreateArgs newTag message)) = Except.error e →
      bumpExecute oracle newTag message =
        ⟨[tagCreateArgs newTag message], some ("✗ Error: ".data ++ e), 1⟩) ∧
    (∀ o e, runGit (oracle (tagCreateArgs newTag message)) = Except.ok o →
      runGit (oracle (pushArgs newTag)) = Except.error e →
      bumpExecute oracle newTag message =
        ⟨[tagCreateArgs newTag message, pushArgs newTag],
         some ("✗ Error: ".data ++ e), 1⟩) ∧
    (∀ o1 o2 e, runGit (oracle (tagCreateArgs newTag message)) = Except.ok o1 →
      runGit (oracle (pushArgs newTag)) = Except.ok o2 →
      runGit (oracle fetchArgs) = Except.error e →
      bumpExecute oracle newTag message =
        ⟨[tagCreateArgs newTag message, pushArgs newTag, fetchArgs],
         some ("✗ Error: ".data ++ e), 1⟩) ∧
    (∀ o1 o2 o3, runGit (oracle (tagCreateArgs newTag message)) = Except.ok o1 →
      runGit (oracle (pushArgs newTag)) = Except.ok o2 →
      runGit (oracle fetchArgs) = Except.ok o3 →
      bumpExecute oracle newTag message =
        ⟨[tagCreateArgs newTag message, pushArgs newTag, fetchArgs], none, 0⟩) := by
  refine ⟨?_, ?_, ?_, ?_⟩
  · intro e h1
    simp only [bumpExecute, h1]
  · intro o e h1 h2
    simp only [bumpExecute, h1, h2]
  · intro o1 o2 e h1 h2 h3
    simp only [bumpExecute, h1, h2, h3]
  · intro o1 o2 o3 h1 h2 h3
    simp only [bumpExecute, h1, h2, h3]

theorem bump_execute_sequencing_witness :
    runGit ((fun args => if args = pushArgs "d0.0.1".data then
        (⟨1, [], "push failed".data⟩ : GitResult) else ⟨0, [], []⟩)
        (tagCreateArgs "d0.0.1".data "msg".data)) = Except.ok [] ∧
    runGit ((fun args => if args = pushArgs "d0.0.1".data then
        (⟨1, [], "push failed".data⟩ : GitResult) else ⟨0, [], []⟩)
        (pushArgs "d0.0.1".data)) = Except.error "push failed".data ∧
    bumpExecute (fun args => if args = pushArgs "d0.0.1".data then
        (⟨1, [], "push failed".data⟩ : GitResult) else ⟨0, [], []⟩)
        "d0.0.1".data "msg".data =
      ⟨[tagCreateArgs "d0.0.1".data "msg".data, pushArgs "d0.0.1".data],
       some ("✗ Error: ".data ++ "push failed".data), 1⟩ :=
  ⟨rfl, rfl,
   (bump_execute_sequencing
     (fun args => if args = pushArgs "d0.0.1".data then
        (⟨1, [], "push failed".data⟩ : GitResult) else ⟨0, [], []⟩)
     "d0.0.1".data "msg".data).2.1 [] "push failed".data rfl rfl⟩

/-- C8: getLatestTagForEnv returns absent (never an error) in each of the
three situations: the key is missing from the registry, the underlying
tag-listing query fails, or the query succeeds but none of the returned
lines decodes to a version for the environment's prefix. -/
theorem getLatest_absent_cases :
    (∀ envName envs gitres, envLookup envName envs = none →
      getLatestTagForEnv envName envs gitres = none) ∧
    (∀ envName envs gitres e, runGit gitres = Except.error e →
      getLatestTagForEnv envName envs gitres = none) ∧
    (∀ envName envs gitres env output, envLookup envName envs = some env →
      runGit gitres = Except.ok output →
      decodeTagLines env.pfx output = [] →
      getLatestTagForEnv envName envs gitres = none) := by
  refine ⟨?_, ?_, ?_⟩
  · intro envName envs gitres h
    simp only [getLatestTagForEnv, h]
  · intro envName envs gitres e h
    cases henv : envLookup envName envs with
    | none => simp only [getLatestTagForEnv, henv]
    | some env => simp only [getLatestTagForEnv, henv, h]
  · intro envName envs gitres env output henv hok hdec
    simp only [getLatestTagForEnv, henv, hok]
    by_cases ho : output = []
    · rw [if_pos ho]
    · rw [if_neg ho, hdec, List.mergeSort_nil]

theorem getLatest_absent_cases_witness :
    (envLookup "prod".data [] = none ∧
      getLatestTagForEnv "prod".data [] ⟨0, [], []⟩ = none) ∧
    (runGit (⟨1, [], "fatal: not a git repository".data⟩ : GitResult) =
        Except.error "fatal: not a git repository".data ∧
      getLatestTagForEnv "prod".data
        [("prod".data, ⟨"Production".data, "v".data, none⟩)]
        ⟨1, [], "fatal: not a git repository".data⟩ = none) ∧
    (envLookup "prod".data
        [("prod".data, ⟨"Production".data, "v".data, none⟩)] =
        some ⟨"Production".data, "v".data, none⟩ ∧
      runGit (⟨0, "victory-not-a-version\nv1.2".data, []⟩ : GitResult) =
        Except.ok "victory-not-a-version\nv1.2".data ∧
      decodeTagLines "v".data "victory-not-a-version\nv1.2".data = [] ∧
      getLatestTagForEnv "prod".data
        [("prod".data, ⟨"Production".data, "v".data, none⟩)]
        ⟨0, "victory-not-a-version\nv1.2".data, []⟩ = none) :=
  ⟨⟨rfl, getLatest_absent_cases.1 "prod".data [] ⟨0, [], []⟩ rfl⟩,
   ⟨rfl, getLatest_absent_cases.2.1 "prod".data
      [("prod".data, ⟨"Production".data, "v".data, none⟩)]
      ⟨1, [], "fatal: not a git repository".data⟩
      "fatal: not a git repository".data rfl⟩,
   ⟨rfl, rfl, rfl,
    getLatest_absent_cases.2.2 "prod".data
      [("prod".data, ⟨"Production".data, "v".data, none⟩)]
      ⟨0, "victory-not-a-version\nv1.2".data, []⟩
      ⟨"Production".data, "v".data, none⟩
      "victory-not-a-version\nv1.2".data rfl rfl rfl⟩⟩

/-- C2: decoding the concatenation of any prefix with a formatted version
yields back exactly that version triple. -/
theorem roundtrip_format_parse (p : List Char) (v : Version) :
    parseSemverFromTag (p ++ formatVersion v) p = some v := by
  unfold parseSemverFromTag
  have hpf : p.isPrefixOf (p ++ formatVersion v) = true := by
    rw [List.isPrefixOf_iff_prefix]
    exact ⟨formatVersion v, rfl⟩
  rw [if_pos hpf, List.drop_left]
  exact matchSemverCore_format v

-- Helper: a successful core match decomposes the input into three
-- non-empty digit runs separated by single dots, with nothing after.

theorem matchSemverCore_eq_some {cs : List Char} {v : Version}
    (h : matchSemverCore cs = some v) :
    ∃ d1 d2 d3 : List Char,
      cs = d1 ++ '.' :: d2 ++ '.' :: d3 ∧ d1 ≠ [] ∧ d2 ≠ [] ∧ d3 ≠ [] ∧
      (∀ c ∈ d1, c.isDigit = true) ∧ (∀ c ∈ d2, c.isDigit = true) ∧
      (∀ c ∈ d3, c.isDigit = true) ∧
      v = ⟨digitsToNat d1, digitsToNat d2, digitsToNat d3⟩ := by
  unfold matchSemverCore at h
  split at h
  rename_i d1 rest1 heq1
  split at h
  · exact absurd h (by simp)
  rename_i h1
  split at h
  case h_2 => exact absurd h (by simp)
  rename_i r2
  split at h
  rename_i d2 rest2 heq3
  split at h
  · exact absurd h (by simp)
  rename_i h2
  split at h
  case h_2 => exact absurd h (by simp)
  rename_i r3
  split at h
  rename_i d3 rest3 heq5
  split at h
  · exact absurd h (by simp)
  rename_i h3
  split at h
  case isFalse => exact absurd h (by simp)
  rename_i h4
  rw [List.span_eq_take_drop] at heq1 heq3 heq5
  have e1a : cs.takeWhile (fun c => c.isDigit) = d1 := congrArg Prod.fst heq1
  have e1b : cs.dropWhile (fun c => c.isDigit) = '.' :: r2 := congrArg Prod.snd heq1
  have e2a : r2.takeWhile (fun c => c.isDigit) = d2 := congrArg Prod.fst heq3
  have e2b : r2.dropWhile (fun c => c.isDigit) = '.' :: r3 := congrArg Prod.snd heq3
  have e3a : r3.takeWhile (fun c => c.isDigit) = d3 := congrArg Prod.fst heq5
  have e3b : r3.dropWhile (fun c => c.isDigit) = rest3 := congrArg Prod.snd heq5
  refine ⟨d1, d2, d3, ?_, h1, h2, h3, ?_, ?_, ?_, ?_⟩
  · have hcs : cs = d1 ++ '.' :: r2 := by
      rw [← e1a, ← e1b, List.takeWhile_append_dropWhile]
    have hr2 : r2 = d2 ++ '.' :: r3 := by
      rw [← e2a, ← e2b, List.takeWhile_append_dropWhile]
    have hr3 : r3 = d3 ++ rest3 := by
      rw [← e3a, ← e3b, List.takeWhile_append_dropWhile]
    rw [hcs, hr2, hr3, h4]
    simp [List.append_assoc]
  · intro c hc
    exact List.mem_takeWhile_imp (e1a ▸ hc)
  · intro c hc
    exact List.mem_takeWhile_imp (e2a ▸ hc)
  · intro c hc
    exact List.mem_takeWhile_imp (e3a ▸ hc)
  · exact (Option.some.inj h).symm

/-- C3: parseSemverFromTag returns absent unless the tag begins with the
prefix and the remainder is exactly three non-empty digit runs separated
by single dots; a tag with trailing characters such as v1.2.3-rc1 decodes
as absent for prefix v, and leading zeros parse as plain integers
(01 parses as 1). -/
theorem parse_semver_shape :
    (∀ (tag pfx : List Char) (v : Version), parseSemverFromTag tag pfx = some v →
      pfx.isPrefixOf tag = true ∧
      ∃ d1 d2 d3 : List Char,
        tag.drop pfx.length = d1 ++ '.' :: d2 ++ '.' :: d3 ∧
        d1 ≠ [] ∧ d2 ≠ [] ∧ d3 ≠ [] ∧
        (∀ c ∈ d1, c.isDigit = true) ∧ (∀ c ∈ d2, c.isDigit = true) ∧
        (∀ c ∈ d3, c.isDigit = true) ∧
        v = ⟨digitsToNat d1, digitsToNat d2, digitsToNat d3⟩) ∧
    parseSemverFromTag "v1.2.3-rc1".data "v".data = none ∧
    parseSemverFromTag "v01.2.3".data "v".data = some ⟨1, 2, 3⟩ := by
  refine ⟨?_, by decide, by decide⟩
  intro tag pfx v h
  unfold parseSemverFromTag at h
  split at h
  · rename_i hp
    exact ⟨hp, matchSemverCore_eq_some h⟩
  · exact absurd h (by simp)

theorem parse_semver_shape_witness :
    "v".data.isPrefixOf "v1.22.3".data = true ∧
    ∃ d1 d2 d3 : List Char,
      ("v1.22.3".data : List Char).drop ("v".data : List Char).length =
        d1 ++ '.' :: d2 ++ '.' :: d3 ∧
      d1 ≠ [] ∧ d2 ≠ [] ∧ d3 ≠ [] ∧
      (∀ c ∈ d1, c.isDigit = true) ∧ (∀ c ∈ d2, c.isDigit = true) ∧
      (∀ c ∈ d3, c.isDigit = true) ∧
      (⟨1, 22, 3⟩ : Version) = ⟨digitsToNat d1, digitsToNat d2, digitsToNat d3⟩ :=
  parse_semver_shape.1 "v1.22.3".data "v".data ⟨1, 22, 3⟩ (by decide)

/-- C9: when a per-tag output line is parsed, the message body is
reconstructed by rejoining with the delimiter every split part after the
third field, so a body containing the delimiter itself survives into the
record's description (modulo the source's trim) instead of being cut at
a fixed field count. -/
theorem parseTagLine_body_rejoin (pfx name author ago body : List Char)
    (v : Version) (hn : '|' ∉ name) (ha : '|' ∉ author) (hg : '|' ∉ ago)
    (hv : parseSemverFromTag name pfx = some v) :
    parseTagLine pfx (name ++ '|' :: author ++ '|' :: ago ++ '|' :: body) =
      some ⟨name, if author = [] then "unknown".data else author, ago,
            trimChars body, v⟩ := by
  have hassoc : name ++ '|' :: author ++ '|' :: ago ++ '|' :: body
      = name ++ '|' :: (author ++ '|' :: (ago ++ '|' :: body)) := by
    simp [List.append_assoc]
  have hsplit : splitOnChar '|' (name ++ '|' :: author ++ '|' :: ago ++ '|' :: body)
      = name :: author :: ago :: splitOnChar '|' body := by
    rw [hassoc, splitOnChar_append_cons _ _ _ hn,
      splitOnChar_append_cons _ _ _ ha, splitOnChar_append_cons _ _ _ hg]
  simp only [parseTagLine, hsplit, List.getD_cons_zero, List.getD_cons_succ,
    List.drop_succ_cons, List.drop_zero, joinSep_splitOnChar, hv]

theorem parseTagLine_body_rejoin_witness :
    '|' ∉ ("v1.0.0".data : List Char) ∧ '|' ∉ ("alice".data : List Char) ∧
    '|' ∉ ("2 days ago".data : List Char) ∧
    parseSemverFromTag "v1.0.0".data "v".data = some ⟨1, 0, 0⟩ ∧
    parseTagLine "v".data
        ("v1.0.0".data ++ '|' :: "alice".data ++ '|' :: "2 days ago".data ++
          '|' :: " note | with pipe ".data) =
      some ⟨"v1.0.0".data,
            if ("alice".data : List Char) = [] then "unknown".data
            else "alice".data,
            "2 days ago".data, trimChars " note | with pipe ".data, ⟨1, 0, 0⟩⟩ :=
  ⟨by decide, by decide, by decide, by decide,
   parseTagLine_body_rejoin "v".data "v1.0.0".data "alice".data
     "2 days ago".data " note | with pipe ".data ⟨1, 0, 0⟩
     (by decide) (by decide) (by decide) (by decide)⟩

-- Helper lemmas for the prefix-group map.

theorem groupLookup_insertTagGroup_self
    (m : List (List Char × List (List Char))) (p tag : List Char) :
    groupLookup p (insertTagGroup m p tag) =
      some (match groupLookup p m with
            | none => [tag]
            | some ex => if ex.length < 3 then ex ++ [tag] else ex) := by
  induction m with
  | nil => simp [insertTagGroup, groupLookup]
  | cons kv rest ih =>
    obtain ⟨q, ex⟩ := kv
    by_cases hq : q = p
    · subst hq
      simp [insertTagGroup, groupLookup]
    · simp [insertTagGroup, groupLookup, hq, ih]

theorem groupLookup_insertTagGroup_other
    (m : List (List Char × List (List Char))) (p q tag : List Char)
    (hpq : q ≠ p) :
    groupLookup p (insertTagGroup m q tag) = groupLookup p m := by
  induction m with
  | nil => simp [insertTagGroup, groupLookup, hpq]
  | cons kv rest ih =>
    obtain ⟨k, ex⟩ := kv
    by_cases hk : k = q
    · subst hk
      simp [insertTagGroup, groupLookup, hpq]
    · simp [insertTagGroup, groupLookup, hk, ih]

theorem detect_foldl_lookup (tags : List (List Char)) :
    ∀ (m : List (List Char × List (List Char))) (p : List Char),
      groupLookup p (tags.foldl detectStep m) =
        match groupLookup p m with
        | some ex => some (ex ++ (tags.filter
            (fun t => decide (tagMatchedPfx t = some p))).take (3 - ex.length))
        | none =>
          if (tags.filter (fun t => decide (tagMatchedPfx t = some p))) = []
          then none
          else some ((tags.filter
            (fun t => decide (tagMatchedPfx t = some p))).take 3) := by
  induction tags with
  | nil =>
    intro m p
    cases hm : groupLookup p m <;> simp [hm]
  | cons t ts ih =>
    intro m p
    rw [List.foldl_cons]
    cases hmatch : tagMatchedPfx t with
    | none =>
      have hstep : detectStep m t = m := by simp [detectStep, hmatch]
      have hpred : decide (tagMatchedPfx t = some p) = false := by
        simp [hmatch]
      rw [hstep, ih m p]
      simp only [List.filter_cons, hpred]
      split <;> rfl
    | some q =>
      by_cases hq : q = p
      · subst hq
        have hstep : detectStep m t = insertTagGroup m q t := by
          simp [detectStep, hmatch]
        have hpred : decide (tagMatchedPfx t = some q) = true := by
          simp [hmatch]
        rw [hstep, ih (insertTagGroup m q t) q,
          groupLookup_insertTagGroup_self m q t]
        simp only [List.filter_cons, hpred, if_pos]
        cases hm : groupLookup q m with
        | none =>
          simp
        | some ex =>
          by_cases hlen : ex.length < 3
          · have hk : 3 - ex.length = (3 - (ex.length + 1)) + 1 := by omega
            simp only [hm, if_pos hlen, hk, List.take_succ_cons, List.length_append,
              List.length_cons, List.length_nil]
            simp [List.append_assoc]
          · have hk : 3 - ex.length = 0 := by omega
            simp only [hm, if_neg hlen, hk, List.take_zero, List.append_nil]
      · have hstep : detectStep m t = insertTagGroup m q t := by
          simp [detectStep, hmatch]
        have hpred : decide (tagMatchedPfx t = some p) = false := by
          simp [hmatch, hq]
        rw [hstep, ih (insertTagGroup m q t) p,
          groupLookup_insertTagGroup_other m p q t hq]
        simp only [List.filter_cons, hpred]
        split <;> rfl

/-- C4: detectPrefixes groups exactly the tags whose name matches the
detection regex under their captured alphabetic prefix (case-sensitive,
trailing characters after the numeric run ignored), silently excludes
every non-matching tag, and each group keeps at most the first 3
qualifying tags in listing order; on the spec's example input the groups
are d ↦ [d0.1.16, d0.1.17] and V ↦ [V1.0.0], with "random" excluded. -/
theorem detectPrefixes_grouping :
    (∀ (tags : List (List Char)) (p : List Char),
      groupLookup p (detectPrefixesFromTags tags) =
        if (tags.filter (fun t => decide (tagMatchedPfx t = some p))) = []
        then none
        else some ((tags.filter
          (fun t => decide (tagMatchedPfx t = some p))).take 3)) ∧
    detectPrefixes ⟨0, "d0.1.16\nd0.1.17\nV1.0.0\nrandom".data, []⟩ =
      [("d".data, ["d0.1.16".data, "d0.1.17".data]),
       ("V".data, ["V1.0.0".data])] := by
  refine ⟨?_, by decide⟩
  intro tags p
  have h := detect_foldl_lookup tags [] p
  rw [detectPrefixesFromTags]
  simpa using h

-- Order-theoretic facts about compareSemver and the sort comparator.

theorem compareSemver_self (a : Version) : compareSemver a a = 0 := by
  simp [compareSemver]

theorem compareSemver_neg (a b : Version) :
    compareSemver a b = -compareSemver b a := by
  unfold compareSemver
  split_ifs <;> omega

theorem compareSemver_eq_zero_iff {a b : Version} :
    compareSemver a b = 0 ↔ a = b := by
  obtain ⟨a1, a2, a3⟩ := a
  obtain ⟨b1, b2, b3⟩ := b
  unfold compareSemver
  simp only [Version.mk.injEq]
  split_ifs <;> omega

theorem compareSemver_le_trans {a b c : Version}
    (h1 : compareSemver a b ≤ 0) (h2 : compareSemver b c ≤ 0) :
    compareSemver a c ≤ 0 := by
  unfold compareSemver at h1 h2 ⊢
  split_ifs at h1 h2 ⊢ <;> omega

theorem tagSortLE_trans (a b c : TagRecord)
    (h1 : tagSortLE a b) (h2 : tagSortLE b c) : tagSortLE a c := by
  simp only [tagSortLE, decide_eq_true_eq] at h1 h2 ⊢
  exact compareSemver_le_trans h2 h1

theorem tagSortLE_total (a b : TagRecord) :
    (tagSortLE a b || tagSortLE b a) = true := by
  simp only [tagSortLE, Bool.or_eq_true, decide_eq_true_eq]
  have h := compareSemver_neg a.version b.version
  omega

theorem exists_first_split {α : Type} [DecidableEq α] {l : List α} {a : α}
    (h : a ∈ l) : ∃ s t, l = s ++ a :: t ∧ a ∉ s := by
  induction l with
  | nil => cases h
  | cons x xs ih =>
    by_cases hx : x = a
    · exact ⟨[], xs, by rw [hx, List.nil_append], by simp⟩
    · have hmem : a ∈ xs := by
        rcases List.mem_cons.mp h with h' | h'
        · exact absurd h'.symm hx
        · exact h'
      obtain ⟨s, t, hst, hns⟩ := ih hmem
      refine ⟨x :: s, t, by rw [hst, List.cons_append], ?_⟩
      intro hmem2
      rcases List.mem_cons.mp hmem2 with h' | h'
      · exact hx h'.symm
      · exact hns h'

/-- C1: whenever the environment is configured and its tag listing
decodes to at least one record, getLatestTagForEnv returns a decoded
record t that is maximal under the numeric (major, minor, patch)
comparison, and every record listed before t has a strictly different
(hence strictly smaller) version — i.e. among version ties the record
appearing first in the raw listing order wins, so the result is
deterministic for unchanged input. -/
theorem getLatest_first_maximal (envName : List Char)
    (envs : List (List Char × Env)) (gitres : GitResult) (env : Env)
    (output : List Char) (henv : envLookup envName envs = some env)
    (hgit : runGit gitres = Except.ok output)
    (hne : decodeTagLines env.pfx output ≠ []) :
    ∃ t pre post,
      getLatestTagForEnv envName envs gitres = some t ∧
      decodeTagLines env.pfx output = pre ++ t :: post ∧
      (∀ u ∈ decodeTagLines env.pfx output,
        compareSemver u.version t.version ≤ 0) ∧
      (∀ u ∈ pre, compareSemver u.version t.version ≠ 0) := by
  have hout : output ≠ [] := by
    intro h0
    apply hne
    rw [h0]
    rfl
  cases hsort : (decodeTagLines env.pfx output).mergeSort tagSortLE with
  | nil =>
    exfalso
    apply hne
    have hlen := congrArg List.length hsort
    rw [List.length_mergeSort] at hlen
    exact List.length_eq_zero.mp (by simpa using hlen)
  | cons t rest =>
    have hget : getLatestTagForEnv envName envs gitres = some t := by
      simp only [getLatestTagForEnv, henv, hgit]
      rw [if_neg hout, hsort]
    have htmem : t ∈ decodeTagLines env.pfx output :=
      List.mem_mergeSort.mp (by rw [hsort]; exact List.mem_cons_self _ _)
    have hsorted := List.sorted_mergeSort tagSortLE_trans tagSortLE_total
      (decodeTagLines env.pfx output)
    rw [hsort] at hsorted
    have hmax : ∀ u ∈ decodeTagLines env.pfx output,
        compareSemver u.version t.version ≤ 0 := by
      intro u hu
      have hu' : u ∈ t :: rest := by
        rw [← hsort]
        exact List.mem_mergeSort.mpr hu
      rcases List.mem_cons.mp hu' with h' | h'
      · rw [h', compareSemver_self]
      · have hle := (List.pairwise_cons.mp hsorted).1 u h'
        simpa [tagSortLE, decide_eq_true_eq] using hle
    obtain ⟨pre, post, hdecomp, hnotpre⟩ := exists_first_split htmem
    refine ⟨t, pre, post, hget, hdecomp, hmax, ?_⟩
    intro u hu hzero
    have hut : u ≠ t := fun he => hnotpre (he ▸ hu)
    obtain ⟨pre1, pre2, hpre⟩ := List.append_of_mem hu
    have hdecomp2 : decodeTagLines env.pfx output
        = pre1 ++ u :: (pre2 ++ t :: post) := by
      rw [hdecomp, hpre]
      simp
    have hKmem : List.Sublist
        (List.replicate (List.count t (pre2 ++ t :: post)) t)
        (pre2 ++ t :: post) :=
      List.le_count_iff_replicate_sublist.mp (Nat.le_refl _)
    have hsubtags : List.Sublist
        (u :: List.replicate (List.count t (pre2 ++ t :: post)) t)
        (decodeTagLines env.pfx output) := by
      rw [hdecomp2]
      exact (hKmem.cons₂ u).trans (List.sublist_append_right pre1 _)
    have htu : tagSortLE u t = true := by
      simp only [tagSortLE, decide_eq_true_eq]
      have := compareSemver_neg u.version t.version
      omega
    have htt : tagSortLE t t = true := by
      simp [tagSortLE, compareSemver_self]
    have hpairwise :
        (u :: List.replicate (List.count t (pre2 ++ t :: post)) t).Pairwise
          (fun a b => tagSortLE a b = true) := by
      rw [List.pairwise_cons]
      refine ⟨fun b hb => ?_, ?_⟩
      · rw [List.eq_of_mem_replicate hb]
        exact htu
      · rw [List.pairwise_replicate]
        right
        exact htt
    have hsubsorted := List.sublist_mergeSort tagSortLE_trans tagSortLE_total
      hpairwise hsubtags
    rw [hsort] at hsubsorted
    have hsub2 : List.Sublist
        (u :: List.replicate (List.count t (pre2 ++ t :: post)) t) rest := by
      cases hsubsorted with
      | cons _ h => exact h
      | cons₂ h => exact absurd rfl hut
    have hcount_rest : List.count t (pre2 ++ t :: post) ≤ List.count t rest :=
      List.le_count_iff_replicate_sublist.mpr
        ((List.sublist_cons_self u _).trans hsub2)
    have hperm := List.mergeSort_perm (decodeTagLines env.pfx output) tagSortLE
    rw [hsort] at hperm
    have hcount_eq := hperm.count_eq t
    have hcount_pre : List.count t pre = 0 := List.count_eq_zero.mpr hnotpre
    have hcount_pre2 : List.count t pre2 = 0 := by
      have hsubpre : List.Sublist pre2 pre := by
        rw [hpre]
        exact (List.sublist_cons_self u pre2).trans
          (List.sublist_append_right pre1 _)
      have := hsubpre.count_le t
      omega
    have e1 : List.count t (t :: rest) = List.count t rest + 1 :=
      List.count_cons_self t rest
    have e2 : List.count t (decodeTagLines env.pfx output)
        = List.count t pre + (List.count t post + 1) := by
      rw [hdecomp, List.count_append, List.count_cons_self]
    have e3 : List.count t (pre2 ++ t :: post)
        = List.count t pre2 + (List.count t post + 1) := by
      rw [List.count_append, List.count_cons_self]
    omega

theorem getLatest_first_maximal_witness :
    decodeTagLines "v".data
        "v1.2.3|a|t|m\nv1.2.10|b|t|m\nv1.3.0|c|t|m".data ≠ [] ∧
    ∃ t pre post,
      getLatestTagForEnv "prod".data
          [("prod".data, ⟨"Production".data, "v".data, none⟩)]
          ⟨0, "v1.2.3|a|t|m\nv1.2.10|b|t|m\nv1.3.0|c|t|m".data, []⟩ = some t ∧
      decodeTagLines "v".data
          "v1.2.3|a|t|m\nv1.2.10|b|t|m\nv1.3.0|c|t|m".data = pre ++ t :: post ∧
      (∀ u ∈ decodeTagLines "v".data
          "v1.2.3|a|t|m\nv1.2.10|b|t|m\nv1.3.0|c|t|m".data,
        compareSemver u.version t.version ≤ 0) ∧
      (∀ u ∈ pre, compareSemver u.version t.version ≠ 0) ∧
      t.name = "v1.3.0".data := by
  refine ⟨by decide, ?_⟩
  obtain ⟨t, pre, post, hget, hdec, hmax, hpre⟩ :=
    getLatest_first_maximal "prod".data
      [("prod".data, ⟨"Production".data, "v".data, none⟩)]
      ⟨0, "v1.2.3|a|t|m\nv1.2.10|b|t|m\nv1.3.0|c|t|m".data, []⟩
      ⟨"Production".data, "v".data, none⟩
      "v1.2.3|a|t|m\nv1.2.10|b|t|m\nv1.3.0|c|t|m".data
      rfl rfl (by decide)
  refine ⟨t, pre, post, hget, hdec, hmax, hpre, ?_⟩
  have htmem : t ∈ decodeTagLines "v".data
      "v1.2.3|a|t|m\nv1.2.10|b|t|m\nv1.3.0|c|t|m".data := by
    rw [hdec]
    exact List.mem_append_right _ (List.mem_cons_self _ _)
  have heval : decodeTagLines "v".data
      "v1.2.3|a|t|m\nv1.2.10|b|t|m\nv1.3.0|c|t|m".data =
      [⟨"v1.2.3".data, "a".data, "t".data, "m".data, ⟨1, 2, 3⟩⟩,
       ⟨"v1.2.10".data, "b".data, "t".data, "m".data, ⟨1, 2, 10⟩⟩,
       ⟨"v1.3.0".data, "c".data, "t".data, "m".data, ⟨1, 3, 0⟩⟩] := by decide
  rw [heval] at htmem hmax
  have h3 := hmax ⟨"v1.3.0".data, "c".data, "t".data, "m".data, ⟨1, 3, 0⟩⟩
    (by decide)
  simp only [List.mem_cons, List.not_mem_nil, or_false] at htmem
  rcases htmem with h | h | h <;> subst h
  · exact absurd h3 (by decide)
  · exact absurd h3 (by decide)
  · rfl
